import Mathlib

/-!
Shallow embedding of the PDF text-extraction-to-HTML module of the
Almeida editor repository (source: `src/components/editor/MenuBar.tsx`,
second embedded document, the `pdf-to-html` library), together with the
PDF worker configuration guard (`src/app/(editor)/pdf/page.tsx`).

Strings are modelled as Lean `String` (lists of characters), JS numbers
occurring as text-run coordinates as `ℚ`, and `Math.round` by its
ECMAScript definition (nearest integer, ties toward positive infinity,
i.e. `⌊q + 1/2⌋`).
-/

/-- The set of characters matched by the ECMAScript regexp class `\s`
(WhiteSpace ∪ LineTerminator): TAB, LF, VT, FF, CR, SP, NBSP, OGHAM SP,
the U+2000–U+200A spaces, LS, PS, NNBSP, MMSP, IDEOGRAPHIC SP, ZWNBSP. -/
def isWs (c : Char) : Bool :=
  c.val == 0x09 || c.val == 0x0A || c.val == 0x0B || c.val == 0x0C ||
  c.val == 0x0D || c.val == 0x20 || c.val == 0xA0 || c.val == 0x1680 ||
  (0x2000 ≤ c.val && c.val ≤ 0x200A) || c.val == 0x2028 || c.val == 0x2029 ||
  c.val == 0x202F || c.val == 0x205F || c.val == 0x3000 || c.val == 0xFEFF

/-- One step of `text.replace(/\s+/g, " ")`: every maximal run of
whitespace characters is replaced by a single space. -/
def collapseWs : List Char → List Char
  | [] => []
  | [c] => if isWs c then [' '] else [c]
  | c1 :: c2 :: rest =>
    if isWs c1 then
      if isWs c2 then collapseWs (c2 :: rest)
      else ' ' :: collapseWs (c2 :: rest)
    else c1 :: collapseWs (c2 :: rest)

/-- Remove trailing whitespace characters. -/
def trimEndWs (l : List Char) : List Char := (l.reverse.dropWhile isWs).reverse

/-- Model of `String.prototype.trim`: remove leading and trailing whitespace. -/
def trimWs (l : List Char) : List Char := trimEndWs (l.dropWhile isWs)

/-- Model of `normalizeWhitespace(text)` from the source:
`text.replace(/\s+/g, " ").trim()`. -/
def normalizeWhitespace (s : String) : String := ⟨trimWs (collapseWs s.data)⟩

/-- Dropping a prefix does not lengthen a list: `(l.dropWhile p).length ≤ l.length`. -/
theorem lengthDropWhileLe (p : Char → Bool) (l : List Char) :
    (l.dropWhile p).length ≤ l.length := by
  induction l with
  | nil => simp
  | cons c cs ih =>
    rw [List.dropWhile_cons]
    split
    · exact Nat.le_trans ih (Nat.le_succ _)
    · exact Nat.le_refl _

/-- Fuelled worker for `wordsOf`; the fuel only needs to dominate the
length of the list. -/
def wordsOfGo : Nat → List Char → List (List Char)
  | 0, _ => []
  | _ + 1, [] => []
  | fuel + 1, c :: cs =>
    if isWs c then wordsOfGo fuel cs
    else (c :: cs.takeWhile (fun d => !isWs d)) :: wordsOfGo fuel (cs.dropWhile (fun d => !isWs d))

/-- The maximal runs of non-whitespace characters of a list, in order:
the "words" that whitespace normalization keeps. -/
def wordsOf (l : List Char) : List (List Char) := wordsOfGo l.length l

/-- Join words with single spaces (the normal form that whitespace
normalization produces). -/
def joinWords : List (List Char) → List Char
  | [] => []
  | [w] => w
  | w :: rest => w ++ ' ' :: joinWords rest

/-- Whether a character list starts with a whitespace character. -/
def wsLead : List Char → Bool
  | [] => false
  | c :: _ => isWs c

/-- The double-quote character, `"`. -/
def quotChar : Char := Char.ofNat 34

/-- The apostrophe character. -/
def aposChar : Char := Char.ofNat 39

/-- Model of `value.replace(/c/g, r)` for a single-character pattern `c`. -/
def replaceChar (c : Char) (r : List Char) : List Char → List Char
  | [] => []
  | x :: xs => (if x = c then r else [x]) ++ replaceChar c r xs

/-- Model of `escapeHtml(value)` from the source: the five chained global
replaces, ampersand first. -/
def escapeHtml (s : String) : String :=
  ⟨replaceChar aposChar "&#39;".data
    (replaceChar quotChar "&quot;".data
      (replaceChar '>' "&gt;".data
        (replaceChar '<' "&lt;".data
          (replaceChar '&' "&amp;".data s.data))))⟩

/-- The per-character substitution performed by `escapeHtml`: each of
the five reserved markup characters maps to its entity, every other
character to itself. -/
def escChar (c : Char) : List Char :=
  if c = '&' then "&amp;".data
  else if c = '<' then "&lt;".data
  else if c = '>' then "&gt;".data
  else if c = quotChar then "&quot;".data
  else if c = aposChar then "&#39;".data
  else [c]

/-- ECMAScript `Math.round`: the integer closest to `q`, ties toward
positive infinity; on exact rationals this is `⌊q + 1/2⌋`, computed here
on numerator and denominator (the denominator is positive). -/
def jsRound (q : ℚ) : ℤ := (2 * q.num + q.den) / (2 * (q.den : ℤ))

/-- Modelled from the spec wording: rounding half away from zero. -/
def roundHalfAwayFromZero (q : ℚ) : ℤ := if 0 ≤ q then ⌊q + 1 / 2⌋ else -⌊-q + 1 / 2⌋

/-- Modelled from the spec wording: rounding half to the nearest even
integer (banker's rounding). -/
def roundHalfToEven (q : ℚ) : ℤ :=
  if q - ⌊q⌋ < 1 / 2 then ⌊q⌋
  else if 1 / 2 < q - ⌊q⌋ then ⌊q⌋ + 1
  else if Even ⌊q⌋ then ⌊q⌋ else ⌊q⌋ + 1

/-- One item of `textContent.items`: `str` is `none` when the item has
no `"str"` field, `transform` is `none` when the field is absent or not
an array. -/
structure TextItem where
  str : Option String
  transform : Option (List ℚ)
deriving DecidableEq

/-- One entry pushed onto a line group: `{ x, text: escapeHtml(text) }`. -/
structure Seg where
  x : ℚ
  text : String
deriving DecidableEq

/-- Model of `transform[4] ?? 0` guarded by `Array.isArray`. -/
def itemX (item : TextItem) : ℚ := ((item.transform.bind fun tr => tr.get? 4).getD 0)

/-- Model of `transform[5] ?? 0` guarded by `Array.isArray`. -/
def itemY (item : TextItem) : ℚ := ((item.transform.bind fun tr => tr.get? 5).getD 0)

/-- Whether a text item survives the `if (!("str" in rawItem)) continue`
and `if (!text) continue` guards. -/
def keptItem (item : TextItem) : Bool :=
  match item.str with
  | none => false
  | some s => normalizeWhitespace s != ""

/-- The loop body of `extractPdfToHtml` for one text item: skip items
without a `str` field, normalize, skip empty text, otherwise produce the
run with its line key `Math.round(y)` and escaped text. -/
def runOfItem (item : TextItem) : Option (ℤ × Seg) :=
  match item.str with
  | none => none
  | some raw =>
    let t := normalizeWhitespace raw
    if t = "" then none
    else some (jsRound (itemY item), ⟨itemX item, escapeHtml t⟩)

/-- The surviving runs of one page, in source (insertion) order. -/
def pageRuns (page : List TextItem) : List (ℤ × Seg) := page.filterMap runOfItem

/-- First-occurrence deduplication with an accumulator of already seen
keys: the iteration order of the keys of a JS `Map`. -/
def keysInOrderAux (seen : List ℤ) : List ℤ → List ℤ
  | [] => []
  | k :: ks =>
    if k ∈ seen then keysInOrderAux seen ks
    else k :: keysInOrderAux (k :: seen) ks

/-- Model of `Array.from(lines.keys())`: the distinct line keys of a page in
first-insertion order. -/
def keysInOrder (l : List ℤ) : List ℤ := keysInOrderAux [] l

/-- The distinct line keys of a page, in `Map` iteration order. -/
def pageKeys (page : List TextItem) : List ℤ :=
  keysInOrder ((pageRuns page).map Prod.fst)

/-- Model of `lines.get(key)`: the segments pushed for a given line key, in push
order. -/
def groupFor (page : List TextItem) (k : ℤ) : List Seg :=
  ((pageRuns page).filter (fun r => r.1 = k)).map Prod.snd

/-- Stable insertion for the descending numeric key sort
`sort((a, b) => b - a)`. -/
def insertKeyDesc (k : ℤ) : List ℤ → List ℤ
  | [] => [k]
  | j :: js => if k < j then j :: insertKeyDesc k js else k :: j :: js

/-- Model of `Array.from(lines.keys()).sort((a, b) => b - a)`. -/
def sortKeysDesc : List ℤ → List ℤ
  | [] => []
  | k :: ks => insertKeyDesc k (sortKeysDesc ks)

/-- The sorted line keys of one page, top of page (largest `y`) first. -/
def sortedKeysOf (page : List TextItem) : List ℤ := sortKeysDesc (pageKeys page)

/-- Stable insertion for the ascending segment sort
`sort((a, b) => a.x - b.x)`: the new element goes before the first
element with `x` not smaller, keeping the original order on ties. -/
def insertSegByX (a : Seg) : List Seg → List Seg
  | [] => [a]
  | b :: bs => if b.x < a.x then b :: insertSegByX a bs else a :: b :: bs

/-- The stable ascending-by-`x` sort of one line group. -/
def sortByX : List Seg → List Seg
  | [] => []
  | a :: as => insertSegByX a (sortByX as)

/-- Model of `Array.prototype.join(sep)`. -/
def joinWith (sep : String) : List String → String
  | [] => ""
  | [s] => s
  | s :: rest => s ++ sep ++ joinWith sep rest

/-- The line built for one key: sort the group by `x`, take the escaped
texts, join with single spaces, and re-normalize whitespace. -/
def renderLine (page : List TextItem) (k : ℤ) : String :=
  normalizeWhitespace (joinWith " " ((sortByX (groupFor page k)).map Seg.text))

/-- Model of `linesArray` of one page: one string per sorted key, empty results
dropped by `.filter(Boolean)`. -/
def pageLines (page : List TextItem) : List String :=
  ((sortedKeysOf page).map (renderLine page)).filter (fun s => s != "")

/-- The fragment pushed for one page: either the per-page placeholder
(no legible text) or the lines wrapped one paragraph each. -/
def pageFragment (n : ℕ) (page : List TextItem) : String :=
  let lines := pageLines page
  if lines = [] then
    "<section data-page=\"" ++ toString n ++ "\">\n  <p><em>Página " ++ toString n ++
      ": sem conteúdo textual legível.</em></p>\n</section>"
  else
    "<section data-page=\"" ++ toString n ++ "\">\n  <p>" ++
      joinWith "</p>\n  <p>" lines ++ "</p>\n</section>"

/-- The `fragments` array after the page loop: one fragment per page,
page numbers starting at 1. -/
def fragmentsOf (pages : List (List TextItem)) : List String :=
  pages.enum.map fun p => pageFragment (p.1 + 1) p.2

/-- The document-level fallback notice. -/
def fallbackNotice : String :=
  "<p>Não foi possível extrair texto deste PDF. Tente novamente com um arquivo que contenha texto pesquisável.</p>"

/-- The pure core of `extractPdfToHtml`: from the per-page text items to
the returned markup string. -/
def extractPdfToHtmlCore (pages : List (List TextItem)) : String :=
  let fragments := fragmentsOf pages
  let fragments := if fragments = [] then [fallbackNotice] else fragments
  "<article class=\"almeida-pdf-import\" data-origin=\"pdf\">\n" ++
    joinWith "\n" fragments ++ "\n</article>"

/-- Error message of the browser-only guard. -/
def browserOnlyError : String :=
  "Extração de PDF disponível apenas no ambiente do navegador."

/-- Error message of the data-URI guard. -/
def dataUrlError : String := "Somente data URLs são suportadas no momento."

/-- Model of `s.startsWith(p)`: whether `p` begins `s` (character-wise). -/
def jsStartsWith (s p : String) : Bool := p.data.isPrefixOf s.data

/-- Model of `extractPdfToHtml(dataUri)` with its two entry guards: `inBrowser`
models `typeof window !== "undefined"`, `pages` the per-page text items
the PDF library would yield for the decoded document. -/
def extractPdfToHtml (inBrowser : Bool) (dataUri : String)
    (pages : List (List TextItem)) : Except String String :=
  if inBrowser = false then .error browserOnlyError
  else if jsStartsWith dataUri "data:" = false then .error dataUrlError
  else .ok (extractPdfToHtmlCore pages)

/-- Model of `pdfjs.GlobalWorkerOptions` as mutable process-wide state. -/
structure WorkerOptions where
  workerSrc : String
deriving DecidableEq

/-- Model of `ensurePdfWorkerConfigured` from `pdf/page.tsx`: no-op outside the
browser, otherwise assign the resolved worker source only when the
stored value differs. Returns the new state and whether an assignment
was performed. -/
def ensurePdfWorkerConfigured (inBrowser : Bool) (resolvedSrc : String)
    (st : WorkerOptions) : WorkerOptions × Bool :=
  if inBrowser = false then (st, false)
  else if st.workerSrc ≠ resolvedSrc then (⟨resolvedSrc⟩, true)
  else (st, false)

/-- Concrete page: two runs on distinct lines (`y = 100` above `y = 50`). -/
def pageC1 : List TextItem :=
  [⟨some "top", some [0, 0, 0, 0, 0, 100]⟩, ⟨some "bottom", some [0, 0, 0, 0, 0, 50]⟩]

/-- Concrete page: two runs on one line, given in reverse `x` order. -/
def pageC2 : List TextItem :=
  [⟨some "B", some [0, 0, 0, 0, 10, 100]⟩, ⟨some "A", some [0, 0, 0, 0, 0, 100]⟩]

/-- Concrete page: a single whitespace-only run. -/
def pageWsOnly : List TextItem := [⟨some " ", none⟩]

/-- Concrete page: one run at `y = -3/2`, exactly on a rounding tie. -/
def pageC4 : List TextItem := [⟨some "A", some [0, 0, 0, 0, 0, Rat.divInt (-3) 2]⟩]

/-- Concrete page: a whitespace-only run and an item without text. -/
def pageC6w : List TextItem := [⟨some " ", none⟩, ⟨none, some [1, 2]⟩]

/-! ### Whitespace normalization: characterization and idempotence -/

theorem isWs_space : isWs ' ' = true := by decide

theorem joinWords_nil : joinWords [] = [] := rfl

theorem joinWords_single (w : List Char) : joinWords [w] = w := rfl

theorem joinWords_cons₂ (w w2 : List Char) (R : List (List Char)) :
    joinWords (w :: w2 :: R) = w ++ ' ' :: joinWords (w2 :: R) := rfl

theorem trimWs_cons_of_ws {c : Char} (h : isWs c = true) (x : List Char) :
    trimWs (c :: x) = trimWs x := by
  simp [trimWs, List.dropWhile_cons_of_pos h]

theorem trimEndWs_cons_of_not_ws {c : Char} (h : isWs c = false) (x : List Char) :
    trimEndWs (c :: x) = c :: trimEndWs x := by
  unfold trimEndWs
  rw [List.reverse_cons, List.dropWhile_append]
  by_cases he : (x.reverse.dropWhile isWs).isEmpty
  · rw [if_pos he]
    rw [List.isEmpty_iff] at he
    have h1 : List.dropWhile isWs [c] = [c] := List.dropWhile_cons_of_neg (by simp [h])
    rw [he, h1]
    simp
  · rw [if_neg he]
    simp

theorem trimEndWs_cons_of_ws {c : Char} (h : isWs c = true) (x : List Char) :
    trimEndWs (c :: x) = if trimEndWs x = [] then [] else c :: trimEndWs x := by
  unfold trimEndWs
  rw [List.reverse_cons, List.dropWhile_append]
  by_cases he : (x.reverse.dropWhile isWs).isEmpty
  · rw [if_pos he]
    rw [List.isEmpty_iff] at he
    have h1 : List.dropWhile isWs [c] = [] := by
      rw [List.dropWhile_cons_of_pos h, List.dropWhile_nil]
    rw [he, h1]
    simp
  · rw [if_neg he]
    rw [List.isEmpty_iff] at he
    rw [if_neg (by simp [he])]
    simp

theorem collapseWs_cons_of_not_ws {c : Char} (h : isWs c = false) (x : List Char) :
    collapseWs (c :: x) = c :: collapseWs x := by
  cases x with
  | nil => simp [collapseWs, h]
  | cons d xs => simp [collapseWs, h]

theorem joinWords_cons_cons (c : Char) (w0 : List Char) (R : List (List Char)) :
    joinWords ((c :: w0) :: R) = c :: joinWords (w0 :: R) := by
  cases R <;> simp [joinWords]

theorem joinWords_ne_nil {c : Char} {w : List Char} {R : List (List Char)} :
    joinWords ((c :: w) :: R) ≠ [] := by
  cases R <;> simp [joinWords]

theorem wordsOfGo_nil (fuel : Nat) : wordsOfGo fuel [] = [] := by
  cases fuel <;> rfl

theorem wordsOfGo_fuel :
    ∀ (fuel₁ : Nat) (l : List Char) (fuel₂ : Nat), l.length ≤ fuel₁ → l.length ≤ fuel₂ →
      wordsOfGo fuel₁ l = wordsOfGo fuel₂ l := by
  intro fuel₁
  induction fuel₁ with
  | zero =>
    intro l fuel₂ h1 _
    rw [List.length_eq_zero.mp (Nat.le_zero.mp h1)]
    rw [wordsOfGo_nil, wordsOfGo_nil]
  | succ f ih =>
    intro l fuel₂ h1 h2
    cases l with
    | nil => rw [wordsOfGo_nil, wordsOfGo_nil]
    | cons c cs =>
      cases fuel₂ with
      | zero => exact absurd h2 (by simp)
      | succ f₂ =>
        simp only [List.length_cons, Nat.succ_le_succ_iff] at h1 h2
        show (if isWs c then wordsOfGo f cs
            else (c :: cs.takeWhile (fun d => !isWs d)) ::
              wordsOfGo f (cs.dropWhile (fun d => !isWs d))) =
          (if isWs c then wordsOfGo f₂ cs
            else (c :: cs.takeWhile (fun d => !isWs d)) ::
              wordsOfGo f₂ (cs.dropWhile (fun d => !isWs d)))
        by_cases hc : isWs c
        · rw [if_pos hc, if_pos hc, ih cs f₂ h1 h2]
        · rw [if_neg hc, if_neg hc,
            ih (cs.dropWhile (fun d => !isWs d)) f₂
              (Nat.le_trans (lengthDropWhileLe _ _) h1)
              (Nat.le_trans (lengthDropWhileLe _ _) h2)]

theorem wordsOf_nil : wordsOf [] = [] := rfl

theorem wordsOf_cons_of_ws {c : Char} (h : isWs c = true) (cs : List Char) :
    wordsOf (c :: cs) = wordsOf cs := by
  show (if isWs c then wordsOfGo cs.length cs
      else (c :: cs.takeWhile (fun d => !isWs d)) ::
        wordsOfGo cs.length (cs.dropWhile (fun d => !isWs d))) = wordsOf cs
  rw [if_pos h]
  rfl

theorem wordsOf_cons_of_not_ws {c : Char} (h : isWs c = false) (cs : List Char) :
    wordsOf (c :: cs) =
      (c :: cs.takeWhile (fun d => !isWs d)) :: wordsOf (cs.dropWhile (fun d => !isWs d)) := by
  show (if isWs c then wordsOfGo cs.length cs
      else (c :: cs.takeWhile (fun d => !isWs d)) ::
        wordsOfGo cs.length (cs.dropWhile (fun d => !isWs d))) = _
  rw [if_neg (by simp [h])]
  rw [wordsOfGo_fuel cs.length _ _ (lengthDropWhileLe _ _) (Nat.le_refl _)]
  rfl

theorem joinWords_wordsOf_cons {c : Char} (cs : List Char) (h : isWs c = false) :
    joinWords (wordsOf (c :: cs)) =
      c :: ((if wsLead cs && !(wordsOf cs).isEmpty then [' '] else []) ++
        joinWords (wordsOf cs)) := by
  cases cs with
  | nil =>
    rw [wordsOf_cons_of_not_ws h, List.takeWhile_nil, List.dropWhile_nil, wordsOf_nil,
      joinWords_single, joinWords_nil]
    simp [wsLead]
  | cons d cs' =>
    cases hd : isWs d with
    | true =>
      rw [wordsOf_cons_of_not_ws h, List.takeWhile_cons_of_neg (by simp [hd]),
        List.dropWhile_cons_of_neg (by simp [hd])]
      cases hW : wordsOf (d :: cs') with
      | nil => rw [joinWords_single, joinWords_nil]; simp
      | cons w R =>
        rw [joinWords_cons₂]
        simp [wsLead, hd]
    | false =>
      rw [wordsOf_cons_of_not_ws h, List.takeWhile_cons_of_pos (by simp [hd]),
        List.dropWhile_cons_of_pos (by simp [hd]), joinWords_cons_cons,
        ← wordsOf_cons_of_not_ws hd]
      simp [wsLead, hd]

theorem trimEndWs_collapseWs (l : List Char) :
    trimEndWs (collapseWs l) =
      (if wsLead l && !(wordsOf l).isEmpty then [' '] else []) ++ joinWords (wordsOf l) := by
  induction l with
  | nil => simp [collapseWs, trimEndWs, wordsOf_nil, joinWords]
  | cons c cs ih =>
    cases hc : isWs c with
    | false =>
      rw [collapseWs_cons_of_not_ws hc, trimEndWs_cons_of_not_ws hc, ih,
        joinWords_wordsOf_cons cs hc]
      simp [wsLead, hc]
    | true =>
      cases cs with
      | nil =>
        rw [show collapseWs [c] = [' '] by simp [collapseWs, hc]]
        rw [show trimEndWs [' '] = [] from by decide]
        rw [wordsOf_cons_of_ws hc, wordsOf_nil, joinWords_nil]
        simp
      | cons d cs' =>
        cases hd : isWs d with
        | true =>
          rw [show collapseWs (c :: d :: cs') = collapseWs (d :: cs') by
            simp [collapseWs, hc, hd]]
          rw [ih, wordsOf_cons_of_ws hc]
          simp [wsLead, hc, hd]
        | false =>
          rw [show collapseWs (c :: d :: cs') = ' ' :: collapseWs (d :: cs') by
            simp [collapseWs, hc, hd]]
          rw [trimEndWs_cons_of_ws isWs_space, ih, wordsOf_cons_of_ws hc,
            wordsOf_cons_of_not_ws hd]
          simp [wsLead, hc, hd, joinWords_ne_nil]

theorem trimWs_collapseWs (l : List Char) :
    trimWs (collapseWs l) = joinWords (wordsOf l) := by
  induction l with
  | nil => simp [collapseWs, trimWs, trimEndWs, wordsOf_nil, joinWords]
  | cons c cs ih =>
    cases hc : isWs c with
    | false =>
      rw [collapseWs_cons_of_not_ws hc]
      have h1 : List.dropWhile isWs (c :: collapseWs cs) = c :: collapseWs cs :=
        List.dropWhile_cons_of_neg (by simp [hc])
      rw [show trimWs (c :: collapseWs cs) = c :: trimEndWs (collapseWs cs) by
        unfold trimWs
        rw [h1, trimEndWs_cons_of_not_ws hc]]
      rw [trimEndWs_collapseWs, joinWords_wordsOf_cons cs hc]
    | true =>
      cases cs with
      | nil =>
        rw [show collapseWs [c] = [' '] by simp [collapseWs, hc]]
        rw [show trimWs [' '] = [] from by decide]
        rw [wordsOf_cons_of_ws hc, wordsOf_nil, joinWords_nil]
      | cons d cs' =>
        cases hd : isWs d with
        | true =>
          rw [show collapseWs (c :: d :: cs') = collapseWs (d :: cs') by
            simp [collapseWs, hc, hd]]
          rw [ih, wordsOf_cons_of_ws hc]
        | false =>
          rw [show collapseWs (c :: d :: cs') = ' ' :: collapseWs (d :: cs') by
            simp [collapseWs, hc, hd]]
          rw [trimWs_cons_of_ws isWs_space, ih, wordsOf_cons_of_ws hc]

theorem normalizeWhitespace_data (s : String) :
    (normalizeWhitespace s).data = joinWords (wordsOf s.data) := trimWs_collapseWs s.data

theorem wordsOfGo_cons (f : Nat) (c : Char) (cs : List Char) :
    wordsOfGo (f + 1) (c :: cs) =
      if isWs c then wordsOfGo f cs
      else (c :: cs.takeWhile (fun d => !isWs d)) ::
        wordsOfGo f (cs.dropWhile (fun d => !isWs d)) := rfl

theorem wordsOfGo_spec :
    ∀ (fuel : Nat) (l : List Char), ∀ w ∈ wordsOfGo fuel l, w ≠ [] ∧ ∀ c ∈ w, isWs c = false := by
  intro fuel
  induction fuel with
  | zero => intro l w hw; exact absurd hw (by simp [wordsOfGo])
  | succ f ih =>
    intro l
    cases l with
    | nil => intro w hw; exact absurd hw (by simp [wordsOfGo])
    | cons c cs =>
      rw [wordsOfGo_cons]
      by_cases hc : isWs c
      · rw [if_pos hc]; exact ih cs
      · rw [if_neg hc]
        intro w hw
        rcases List.mem_cons.mp hw with rfl | hw'
        · refine ⟨by simp, ?_⟩
          intro x hx
          rcases List.mem_cons.mp hx with rfl | hx'
          · simpa using hc
          · simpa using List.mem_takeWhile_imp hx'
        · exact ih _ w hw'

theorem wordsOf_spec (l : List Char) :
    ∀ w ∈ wordsOf l, w ≠ [] ∧ ∀ c ∈ w, isWs c = false := wordsOfGo_spec _ l

theorem wordsOfGo_chars :
    ∀ (fuel : Nat) (l : List Char) (w : List Char) (c : Char),
      w ∈ wordsOfGo fuel l → c ∈ w → c ∈ l := by
  intro fuel
  induction fuel with
  | zero => intro l w c hw; exact absurd hw (by simp [wordsOfGo])
  | succ f ih =>
    intro l w c hw hc
    cases l with
    | nil => exact absurd hw (by simp [wordsOfGo])
    | cons d cs =>
      rw [wordsOfGo_cons] at hw
      by_cases hd : isWs d
      · rw [if_pos hd] at hw
        exact List.mem_cons_of_mem _ (ih cs w c hw hc)
      · rw [if_neg hd] at hw
        rcases List.mem_cons.mp hw with rfl | hw'
        · rcases List.mem_cons.mp hc with rfl | hc'
          · exact List.mem_cons_self _ _
          · exact List.mem_cons_of_mem _ (List.takeWhile_subset _ hc')
        · exact List.mem_cons_of_mem _ (List.dropWhile_subset _ (ih _ w c hw' hc))

theorem wordsOf_chars {l w : List Char} {c : Char} (hw : w ∈ wordsOf l) (hc : c ∈ w) :
    c ∈ l := wordsOfGo_chars _ l w c hw hc

theorem wordsOfGo_eq_nil_iff :
    ∀ (fuel : Nat) (l : List Char), l.length ≤ fuel →
      (wordsOfGo fuel l = [] ↔ ∀ c ∈ l, isWs c = true) := by
  intro fuel
  induction fuel with
  | zero =>
    intro l h
    rw [List.length_eq_zero.mp (Nat.le_zero.mp h)]
    simp [wordsOfGo]
  | succ f ih =>
    intro l h
    cases l with
    | nil => simp [wordsOfGo]
    | cons c cs =>
      rw [wordsOfGo_cons]
      simp only [List.length_cons, Nat.succ_le_succ_iff] at h
      by_cases hc : isWs c
      · rw [if_pos hc, ih cs h]
        simp [hc]
      · rw [if_neg hc]
        simp only [List.mem_cons]
        constructor
        · intro hfalse; exact absurd hfalse (by simp)
        · intro hall
          exact absurd (hall c (Or.inl rfl)) hc

theorem wordsOf_eq_nil_iff (l : List Char) :
    wordsOf l = [] ↔ ∀ c ∈ l, isWs c = true := wordsOfGo_eq_nil_iff _ l (Nat.le_refl _)

theorem takeWhileAll {p : Char → Bool} {l : List Char} (h : ∀ a ∈ l, p a = true) :
    l.takeWhile p = l := by
  have h2 := @List.takeWhile_append_of_pos Char p l [] h
  simpa using h2

theorem dropWhileAll {p : Char → Bool} {l : List Char} (h : ∀ a ∈ l, p a = true) :
    l.dropWhile p = [] := by
  have h2 := @List.dropWhile_append_of_pos Char p l [] h
  simpa using h2

theorem wordsOf_joinWords :
    ∀ (W : List (List Char)), (∀ w ∈ W, w ≠ [] ∧ ∀ c ∈ w, isWs c = false) →
      wordsOf (joinWords W) = W := by
  intro W
  induction W with
  | nil => intro _; rw [joinWords_nil, wordsOf_nil]
  | cons w R ih =>
    intro hW
    obtain ⟨hw, hchars⟩ := hW w (List.mem_cons_self _ _)
    obtain ⟨c, w', rfl⟩ : ∃ c w', w = c :: w' := by
      cases w with
      | nil => exact absurd rfl hw
      | cons c w' => exact ⟨c, w', rfl⟩
    have hc : isWs c = false := hchars c (List.mem_cons_self _ _)
    have hw' : ∀ a ∈ w', (fun d => !isWs d) a = true := fun a ha => by
      simp [hchars a (List.mem_cons_of_mem _ ha)]
    cases R with
    | nil =>
      rw [joinWords_single, wordsOf_cons_of_not_ws hc, takeWhileAll hw', dropWhileAll hw',
        wordsOf_nil]
    | cons w2 R' =>
      rw [joinWords_cons₂, List.cons_append, wordsOf_cons_of_not_ws hc,
        List.takeWhile_append_of_pos hw', List.dropWhile_append_of_pos hw',
        List.takeWhile_cons_of_neg (by simp [isWs_space]),
        List.dropWhile_cons_of_neg (by simp [isWs_space]),
        wordsOf_cons_of_ws isWs_space,
        ih (fun u hu => hW u (List.mem_cons_of_mem _ hu))]
      simp

theorem normalizeWhitespace_idem (s : String) :
    normalizeWhitespace (normalizeWhitespace s) = normalizeWhitespace s := by
  apply String.ext
  rw [normalizeWhitespace_data, normalizeWhitespace_data,
    wordsOf_joinWords _ (wordsOf_spec s.data)]

theorem joinWords_chars {W : List (List Char)} {c : Char} (h : c ∈ joinWords W) :
    (∃ w ∈ W, c ∈ w) ∨ c = ' ' := by
  induction W with
  | nil => exact absurd h (by simp [joinWords_nil])
  | cons w R ih =>
    cases R with
    | nil =>
      rw [joinWords_single] at h
      exact Or.inl ⟨w, List.mem_cons_self _ _, h⟩
    | cons w2 R' =>
      rw [joinWords_cons₂] at h
      rcases List.mem_append.mp h with h1 | h1
      · exact Or.inl ⟨w, List.mem_cons_self _ _, h1⟩
      · rcases List.mem_cons.mp h1 with rfl | h2
        · exact Or.inr rfl
        · rcases ih h2 with ⟨u, hu, hcu⟩ | h3
          · exact Or.inl ⟨u, List.mem_cons_of_mem _ hu, hcu⟩
          · exact Or.inr h3

theorem normalizeWhitespace_chars {s : String} {c : Char}
    (h : c ∈ (normalizeWhitespace s).data) : c ∈ s.data ∨ c = ' ' := by
  rw [normalizeWhitespace_data] at h
  rcases joinWords_chars h with ⟨w, hw, hcw⟩ | h1
  · exact Or.inl (wordsOf_chars hw hcw)
  · exact Or.inr h1

theorem normalizeWhitespace_eq_empty_iff (s : String) :
    normalizeWhitespace s = "" ↔ ∀ c ∈ s.data, isWs c = true := by
  constructor
  · intro h
    have hd : (normalizeWhitespace s).data = [] := by rw [h]
    rw [normalizeWhitespace_data] at hd
    rw [← wordsOf_eq_nil_iff]
    cases hW : wordsOf s.data with
    | nil => rfl
    | cons w R =>
      obtain ⟨hw, _⟩ := wordsOf_spec s.data w (hW ▸ List.mem_cons_self _ _)
      obtain ⟨c, w', rfl⟩ : ∃ c w', w = c :: w' := by
        cases w with
        | nil => exact absurd rfl hw
        | cons c w' => exact ⟨c, w', rfl⟩
      rw [hW] at hd
      exact absurd hd joinWords_ne_nil
  · intro h
    apply String.ext
    rw [normalizeWhitespace_data, (wordsOf_eq_nil_iff s.data).mpr h, joinWords_nil]

theorem normalizeWhitespace_ne_empty_iff (s : String) :
    normalizeWhitespace s ≠ "" ↔ ∃ c ∈ s.data, isWs c = false := by
  rw [Ne, normalizeWhitespace_eq_empty_iff]
  constructor
  · intro h
    by_contra hn
    push_neg at hn
    exact h fun c hc => by
      have := hn c hc
      cases hv : isWs c with
      | true => rfl
      | false => exact absurd hv (this)
  · intro ⟨c, hc, hv⟩ hall
    rw [hall c hc] at hv
    exact Bool.true_eq_false.mp hv |>.elim


/-! ### HTML escaping: per-character characterization -/

theorem replaceChar_append (c : Char) (r : List Char) (a b : List Char) :
    replaceChar c r (a ++ b) = replaceChar c r a ++ replaceChar c r b := by
  induction a with
  | nil => rfl
  | cons x xs ih => simp [replaceChar, ih]

theorem escChar_eq (c : Char) :
    escChar c = "&amp;".data ∨ escChar c = "&lt;".data ∨ escChar c = "&gt;".data ∨
      escChar c = "&quot;".data ∨ escChar c = "&#39;".data ∨
      (escChar c = [c] ∧ c ≠ '&' ∧ c ≠ '<' ∧ c ≠ '>' ∧ c ≠ quotChar ∧ c ≠ aposChar) := by
  by_cases h1 : c = '&'
  · exact Or.inl (by simp [escChar, h1])
  by_cases h2 : c = '<'
  · exact Or.inr (Or.inl (by simp [escChar, h1, h2]))
  by_cases h3 : c = '>'
  · exact Or.inr (Or.inr (Or.inl (by simp [escChar, h1, h2, h3])))
  by_cases h4 : c = quotChar
  · exact Or.inr (Or.inr (Or.inr (Or.inl (by simp [escChar, h1, h2, h3, h4]; decide))))
  by_cases h5 : c = aposChar
  · exact Or.inr (Or.inr (Or.inr (Or.inr (Or.inl (by simp [escChar, h1, h2, h3, h4, h5]; decide)))))
  · exact Or.inr (Or.inr (Or.inr (Or.inr (Or.inr
      ⟨by simp [escChar, h1, h2, h3, h4, h5], h1, h2, h3, h4, h5⟩))))

theorem escapeHtml_data (s : String) : (escapeHtml s).data = s.data.flatMap escChar := by
  suffices h : ∀ l : List Char,
      replaceChar aposChar "&#39;".data
        (replaceChar quotChar "&quot;".data
          (replaceChar '>' "&gt;".data
            (replaceChar '<' "&lt;".data
              (replaceChar '&' "&amp;".data l)))) = l.flatMap escChar from h s.data
  intro l
  induction l with
  | nil => rfl
  | cons c cs ih =>
    rw [show replaceChar '&' "&amp;".data (c :: cs) =
      (if c = '&' then "&amp;".data else [c]) ++ replaceChar '&' "&amp;".data cs from rfl]
    rw [replaceChar_append, replaceChar_append, replaceChar_append, replaceChar_append,
      ih, List.flatMap_cons]
    congr 1
    by_cases h1 : c = '&'
    · subst h1; rfl
    rw [if_neg h1]
    by_cases h2 : c = '<'
    · subst h2; rfl
    by_cases h3 : c = '>'
    · subst h3; rfl
    by_cases h4 : c = quotChar
    · subst h4; rfl
    by_cases h5 : c = aposChar
    · subst h5; rfl
    · simp [replaceChar, escChar, h1, h2, h3, h4, h5]

theorem escChar_no_markup {c d : Char} (hd : d ∈ escChar c) :
    d ≠ '<' ∧ d ≠ '>' ∧ d ≠ quotChar ∧ d ≠ aposChar := by
  rcases escChar_eq c with h | h | h | h | h | ⟨h, _, hne2, hne3, hne4, hne5⟩ <;> rw [h] at hd
  · exact (by decide : ∀ x ∈ "&amp;".data, x ≠ '<' ∧ x ≠ '>' ∧ x ≠ quotChar ∧ x ≠ aposChar) d hd
  · exact (by decide : ∀ x ∈ "&lt;".data, x ≠ '<' ∧ x ≠ '>' ∧ x ≠ quotChar ∧ x ≠ aposChar) d hd
  · exact (by decide : ∀ x ∈ "&gt;".data, x ≠ '<' ∧ x ≠ '>' ∧ x ≠ quotChar ∧ x ≠ aposChar) d hd
  · exact (by decide : ∀ x ∈ "&quot;".data, x ≠ '<' ∧ x ≠ '>' ∧ x ≠ quotChar ∧ x ≠ aposChar) d hd
  · exact (by decide : ∀ x ∈ "&#39;".data, x ≠ '<' ∧ x ≠ '>' ∧ x ≠ quotChar ∧ x ≠ aposChar) d hd
  · rw [List.mem_singleton] at hd
    subst hd
    exact ⟨hne2, hne3, hne4, hne5⟩

theorem escChar_has_not_ws {c : Char} (hc : isWs c = false) :
    ∃ d ∈ escChar c, isWs d = false := by
  rcases escChar_eq c with h | h | h | h | h | ⟨h, _⟩ <;> rw [h]
  · exact (by decide : ∃ d ∈ "&amp;".data, isWs d = false)
  · exact (by decide : ∃ d ∈ "&lt;".data, isWs d = false)
  · exact (by decide : ∃ d ∈ "&gt;".data, isWs d = false)
  · exact (by decide : ∃ d ∈ "&quot;".data, isWs d = false)
  · exact (by decide : ∃ d ∈ "&#39;".data, isWs d = false)
  · exact ⟨c, List.mem_singleton_self c, hc⟩

theorem escapeHtml_chars {s : String} {d : Char} (hd : d ∈ (escapeHtml s).data) :
    d ≠ '<' ∧ d ≠ '>' ∧ d ≠ quotChar ∧ d ≠ aposChar := by
  rw [escapeHtml_data] at hd
  obtain ⟨c, _, hdc⟩ := List.mem_flatMap.mp hd
  exact escChar_no_markup hdc

theorem escapeHtml_has_not_ws {s : String} (h : ∃ c ∈ s.data, isWs c = false) :
    ∃ d ∈ (escapeHtml s).data, isWs d = false := by
  obtain ⟨c, hc, hv⟩ := h
  obtain ⟨d, hd, hdv⟩ := escChar_has_not_ws hv
  exact ⟨d, by rw [escapeHtml_data]; exact List.mem_flatMap.mpr ⟨c, hc, hd⟩, hdv⟩

/-! ### Array.join -/

theorem joinWith_nil (sep : String) : joinWith sep [] = "" := rfl

theorem joinWith_single (sep : String) (s : String) : joinWith sep [s] = s := rfl

theorem joinWith_cons₂ (sep : String) (s t : String) (rest : List String) :
    joinWith sep (s :: t :: rest) = s ++ sep ++ joinWith sep (t :: rest) := rfl

theorem joinWith_mem_chars {ss : List String} {s : String} (hs : s ∈ ss) {c : Char}
    (hc : c ∈ s.data) (sep : String) : c ∈ (joinWith sep ss).data := by
  induction ss with
  | nil => exact absurd hs (List.not_mem_nil s)
  | cons t ts ih =>
    cases ts with
    | nil =>
      rw [List.mem_singleton] at hs
      subst hs
      rw [joinWith_single]
      exact hc
    | cons t2 ts' =>
      rw [joinWith_cons₂, String.data_append, String.data_append]
      rcases List.mem_cons.mp hs with rfl | hs'
      · exact List.mem_append_left _ (List.mem_append_left _ hc)
      · exact List.mem_append_right _ (ih hs')

theorem joinWith_chars {sep : String} {ss : List String} {d : Char}
    (h : d ∈ (joinWith sep ss).data) : (∃ s ∈ ss, d ∈ s.data) ∨ d ∈ sep.data := by
  induction ss with
  | nil => exact absurd h (by simp [joinWith_nil])
  | cons t ts ih =>
    cases ts with
    | nil =>
      rw [joinWith_single] at h
      exact Or.inl ⟨t, List.mem_cons_self _ _, h⟩
    | cons t2 ts' =>
      rw [joinWith_cons₂, String.data_append, String.data_append] at h
      rcases List.mem_append.mp h with h1 | h1
      · rcases List.mem_append.mp h1 with h2 | h2
        · exact Or.inl ⟨t, List.mem_cons_self _ _, h2⟩
        · exact Or.inr h2
      · rcases ih h1 with ⟨u, hu, hdu⟩ | h2
        · exact Or.inl ⟨u, List.mem_cons_of_mem _ hu, hdu⟩
        · exact Or.inr h2

/-! ### Map key order: first occurrence, without duplicates -/

theorem keysInOrderAux_mem :
    ∀ (l : List ℤ) (seen : List ℤ) (x : ℤ),
      x ∈ keysInOrderAux seen l ↔ x ∈ l ∧ x ∉ seen := by
  intro l
  induction l with
  | nil => intro seen x; simp [keysInOrderAux]
  | cons k ks ih =>
    intro seen x
    show x ∈ (if k ∈ seen then keysInOrderAux seen ks
        else k :: keysInOrderAux (k :: seen) ks) ↔ _
    by_cases hk : k ∈ seen
    · rw [if_pos hk, ih]
      simp only [List.mem_cons]
      constructor
      · rintro ⟨hx, hxs⟩
        exact ⟨Or.inr hx, hxs⟩
      · rintro ⟨hx | hx, hxs⟩
        · exact absurd (hx ▸ hk) hxs
        · exact ⟨hx, hxs⟩
    · rw [if_neg hk]
      simp only [List.mem_cons, ih]
      constructor
      · rintro (rfl | ⟨hx, hxs⟩)
        · exact ⟨Or.inl rfl, hk⟩
        · exact ⟨Or.inr hx, fun hs => hxs (Or.inr hs)⟩
      · rintro ⟨rfl | hx, hxs⟩
        · exact Or.inl rfl
        · by_cases hxk : x = k
          · exact Or.inl hxk
          · exact Or.inr ⟨hx, by simp [hxk, hxs]⟩

theorem keysInOrderAux_nodup : ∀ (l seen : List ℤ), (keysInOrderAux seen l).Nodup := by
  intro l
  induction l with
  | nil => intro seen; simp [keysInOrderAux]
  | cons k ks ih =>
    intro seen
    show (if k ∈ seen then keysInOrderAux seen ks
        else k :: keysInOrderAux (k :: seen) ks).Nodup
    by_cases hk : k ∈ seen
    · rw [if_pos hk]; exact ih seen
    · rw [if_neg hk]
      refine List.nodup_cons.mpr ⟨fun hmem => ?_, ih _⟩
      rw [keysInOrderAux_mem] at hmem
      exact hmem.2 (List.mem_cons_self _ _)

theorem keysInOrder_mem (l : List ℤ) (x : ℤ) : x ∈ keysInOrder l ↔ x ∈ l := by
  rw [keysInOrder, keysInOrderAux_mem]
  simp

theorem keysInOrder_nodup (l : List ℤ) : (keysInOrder l).Nodup := keysInOrderAux_nodup l []

/-! ### The descending key sort -/

theorem insertKeyDesc_perm (k : ℤ) (l : List ℤ) : List.Perm (insertKeyDesc k l) (k :: l) := by
  induction l with
  | nil => exact List.Perm.refl _
  | cons j js ih =>
    show List.Perm (if k < j then j :: insertKeyDesc k js else k :: j :: js) (k :: j :: js)
    by_cases h : k < j
    · rw [if_pos h]
      exact ((ih.cons j).trans (List.Perm.swap k j js))
    · rw [if_neg h]

theorem sortKeysDesc_perm (l : List ℤ) : List.Perm (sortKeysDesc l) l := by
  induction l with
  | nil => exact List.Perm.refl _
  | cons k ks ih =>
    show List.Perm (insertKeyDesc k (sortKeysDesc ks)) (k :: ks)
    exact (insertKeyDesc_perm k (sortKeysDesc ks)).trans (ih.cons k)

theorem insertKeyDesc_sorted {l : List ℤ} (hl : List.Sorted (· ≥ ·) l) (k : ℤ) :
    List.Sorted (· ≥ ·) (insertKeyDesc k l) := by
  induction l with
  | nil => simp [insertKeyDesc]
  | cons j js ih =>
    obtain ⟨hj, hjs⟩ := List.sorted_cons.mp hl
    show List.Sorted (· ≥ ·) (if k < j then j :: insertKeyDesc k js else k :: j :: js)
    by_cases h : k < j
    · rw [if_pos h]
      refine List.sorted_cons.mpr ⟨fun b hb => ?_, ih hjs⟩
      rcases List.mem_cons.mp ((insertKeyDesc_perm k js).mem_iff.mp hb) with rfl | hbjs
      · exact le_of_lt h
      · exact hj b hbjs
    · rw [if_neg h]
      refine List.sorted_cons.mpr ⟨fun b hb => ?_, hl⟩
      rcases List.mem_cons.mp hb with rfl | hbjs
      · exact not_lt.mp h
      · exact le_trans (hj b hbjs) (not_lt.mp h)

theorem sortKeysDesc_sorted_ge (l : List ℤ) : List.Sorted (· ≥ ·) (sortKeysDesc l) := by
  induction l with
  | nil => simp [sortKeysDesc]
  | cons k ks ih => exact insertKeyDesc_sorted ih k

theorem sortKeysDesc_sorted_gt {l : List ℤ} (h : l.Nodup) :
    List.Sorted (· > ·) (sortKeysDesc l) := by
  have hs := sortKeysDesc_sorted_ge l
  have hn : (sortKeysDesc l).Nodup := (sortKeysDesc_perm l).nodup_iff.mpr h
  exact (List.Pairwise.and hs hn).imp fun {a b} hab => lt_of_le_of_ne hab.1 (Ne.symm hab.2)

theorem sorted_gt_get? {l : List ℤ} (hs : List.Sorted (· > ·) l) {k1 k2 : ℤ}
    (h1 : k1 ∈ l) (h2 : k2 ∈ l) (hlt : k2 < k1) :
    ∃ i j, i < j ∧ l.get? i = some k1 ∧ l.get? j = some k2 := by
  induction l with
  | nil => exact absurd h1 (List.not_mem_nil _)
  | cons a as ih =>
    obtain ⟨ha, has⟩ := List.sorted_cons.mp hs
    rcases List.mem_cons.mp h1 with rfl | h1'
    · have h2' : k2 ∈ as := by
        rcases List.mem_cons.mp h2 with rfl | h
        · exact absurd hlt (lt_irrefl _)
        · exact h
      obtain ⟨j, hj⟩ := List.get?_of_mem h2'
      exact ⟨0, j + 1, Nat.succ_pos j, rfl, by simpa using hj⟩
    · have h2' : k2 ∈ as := by
        rcases List.mem_cons.mp h2 with rfl | h
        · exact absurd hlt (lt_asymm (ha k1 h1'))
        · exact h
      obtain ⟨i, j, hij, hi, hj⟩ := ih has h1' h2'
      exact ⟨i + 1, j + 1, Nat.succ_lt_succ hij, by simpa using hi, by simpa using hj⟩

/-! ### Runs, groups and lines of one page -/

theorem pageRuns_mem_spec {page : List TextItem} {r : ℤ × Seg} (hr : r ∈ pageRuns page) :
    ∃ item ∈ page, ∃ raw : String, item.str = some raw ∧ normalizeWhitespace raw ≠ "" ∧
      r = (jsRound (itemY item), ⟨itemX item, escapeHtml (normalizeWhitespace raw)⟩) := by
  rw [pageRuns, List.mem_filterMap] at hr
  obtain ⟨item, hitem, heq⟩ := hr
  rw [runOfItem] at heq
  cases hstr : item.str with
  | none => rw [hstr] at heq; exact absurd heq (by simp)
  | some raw =>
    rw [hstr] at heq
    replace heq : (if normalizeWhitespace raw = "" then none
        else some (jsRound (itemY item),
          (⟨itemX item, escapeHtml (normalizeWhitespace raw)⟩ : Seg))) = some r := heq
    by_cases ht : normalizeWhitespace raw = ""
    · rw [if_pos ht] at heq
      exact absurd heq (by simp)
    · rw [if_neg ht] at heq
      exact ⟨item, hitem, raw, hstr, ht, (Option.some.inj heq).symm⟩

theorem mem_pageKeys_iff (page : List TextItem) (k : ℤ) :
    k ∈ pageKeys page ↔ ∃ r ∈ pageRuns page, r.1 = k := by
  rw [pageKeys, keysInOrder_mem]
  simp [List.mem_map]

theorem mem_groupFor_of_run {page : List TextItem} {r : ℤ × Seg} (hr : r ∈ pageRuns page) :
    r.2 ∈ groupFor page r.1 := by
  rw [groupFor]
  exact List.mem_map_of_mem _ (List.mem_filter.mpr ⟨hr, by simp⟩)

theorem groupFor_sub_runs {page : List TextItem} {k : ℤ} {s : Seg} (hs : s ∈ groupFor page k) :
    ∃ r ∈ pageRuns page, r.1 = k ∧ r.2 = s := by
  rw [groupFor] at hs
  obtain ⟨r, hr, rfl⟩ := List.mem_map.mp hs
  have := List.mem_filter.mp hr
  exact ⟨r, this.1, by simpa using this.2, rfl⟩

theorem groupFor_text_spec {page : List TextItem} {k : ℤ} {s : Seg} (hs : s ∈ groupFor page k) :
    ∃ t : String, normalizeWhitespace t ≠ "" ∧ s.text = escapeHtml (normalizeWhitespace t) := by
  obtain ⟨r, hr, _, rfl⟩ := groupFor_sub_runs hs
  obtain ⟨item, _, raw, _, ht, heq⟩ := pageRuns_mem_spec hr
  refine ⟨raw, ht, ?_⟩
  rw [heq]

theorem seg_text_has_not_ws {page : List TextItem} {k : ℤ} {s : Seg} (hs : s ∈ groupFor page k) :
    ∃ d ∈ s.text.data, isWs d = false := by
  obtain ⟨t, ht, htext⟩ := groupFor_text_spec hs
  have ht' : normalizeWhitespace (normalizeWhitespace t) ≠ "" := by
    rw [normalizeWhitespace_idem]; exact ht
  have hchar := (normalizeWhitespace_ne_empty_iff (normalizeWhitespace t)).mp ht'
  rw [htext]
  exact escapeHtml_has_not_ws hchar

/-! ### The stable ascending sort on segments -/

theorem insertSegByX_perm (a : Seg) (l : List Seg) :
    List.Perm (insertSegByX a l) (a :: l) := by
  induction l with
  | nil => exact List.Perm.refl _
  | cons b bs ih =>
    show List.Perm (if b.x < a.x then b :: insertSegByX a bs else a :: b :: bs) (a :: b :: bs)
    by_cases h : b.x < a.x
    · rw [if_pos h]
      exact (ih.cons b).trans (List.Perm.swap a b bs)
    · rw [if_neg h]

theorem sortByX_perm (l : List Seg) : List.Perm (sortByX l) l := by
  induction l with
  | nil => exact List.Perm.refl _
  | cons a as ih =>
    show List.Perm (insertSegByX a (sortByX as)) (a :: as)
    exact (insertSegByX_perm a (sortByX as)).trans (ih.cons a)

theorem insertSegByX_sorted {l : List Seg} (hl : List.Sorted (fun u v : Seg => u.x ≤ v.x) l)
    (a : Seg) : List.Sorted (fun u v : Seg => u.x ≤ v.x) (insertSegByX a l) := by
  induction l with
  | nil => simp [insertSegByX]
  | cons b bs ih =>
    obtain ⟨hb, hbs⟩ := List.sorted_cons.mp hl
    show List.Sorted _ (if b.x < a.x then b :: insertSegByX a bs else a :: b :: bs)
    by_cases h : b.x < a.x
    · rw [if_pos h]
      refine List.sorted_cons.mpr ⟨fun u hu => ?_, ih hbs⟩
      rcases List.mem_cons.mp ((insertSegByX_perm a bs).mem_iff.mp hu) with rfl | hubs
      · exact le_of_lt h
      · exact hb u hubs
    · rw [if_neg h]
      refine List.sorted_cons.mpr ⟨fun u hu => ?_, hl⟩
      rcases List.mem_cons.mp hu with rfl | hubs
      · exact not_lt.mp h
      · exact le_trans (not_lt.mp h) (hb u hubs)

theorem sortByX_sorted (l : List Seg) :
    List.Sorted (fun u v : Seg => u.x ≤ v.x) (sortByX l) := by
  induction l with
  | nil => simp [sortByX]
  | cons a as ih => exact insertSegByX_sorted ih a

theorem insertSegByX_filter (a : Seg) (l : List Seg) (v : ℚ) :
    (insertSegByX a l).filter (fun s => decide (s.x = v)) =
      (a :: l).filter (fun s => decide (s.x = v)) := by
  induction l with
  | nil => rfl
  | cons b bs ih =>
    show ((if b.x < a.x then b :: insertSegByX a bs else a :: b :: bs).filter
        (fun s => decide (s.x = v))) = _
    by_cases h : b.x < a.x
    · rw [if_pos h]
      by_cases hav : a.x = v
      · have hbv : ¬(b.x = v) := fun hb => absurd h (by rw [hb, hav]; exact lt_irrefl v)
        simp only [List.filter_cons, ih]
        simp [hav, hbv]
      · simp only [List.filter_cons, ih]
        simp [hav]
    · rw [if_neg h]

theorem sortByX_filter (l : List Seg) (v : ℚ) :
    (sortByX l).filter (fun s => decide (s.x = v)) = l.filter (fun s => decide (s.x = v)) := by
  induction l with
  | nil => rfl
  | cons a as ih =>
    show ((insertSegByX a (sortByX as)).filter (fun s => decide (s.x = v))) = _
    rw [insertSegByX_filter, List.filter_cons, List.filter_cons, ih]

theorem renderLine_ne_empty {page : List TextItem} {k : ℤ} (hk : k ∈ pageKeys page) :
    renderLine page k ≠ "" := by
  obtain ⟨r, hr, rfl⟩ := (mem_pageKeys_iff page k).mp hk
  have hmem : r.2 ∈ groupFor page r.1 := mem_groupFor_of_run hr
  have hmem' : r.2 ∈ sortByX (groupFor page r.1) := (sortByX_perm _).mem_iff.mpr hmem
  obtain ⟨d, hd, hdv⟩ := seg_text_has_not_ws hmem
  rw [renderLine, normalizeWhitespace_ne_empty_iff]
  refine ⟨d, ?_, hdv⟩
  exact joinWith_mem_chars (List.mem_map_of_mem Seg.text hmem') hd " "

theorem pageLines_eq (page : List TextItem) :
    pageLines page = (sortedKeysOf page).map (renderLine page) := by
  rw [pageLines]
  apply List.filter_eq_self.mpr
  intro line hline
  obtain ⟨k, hk, rfl⟩ := List.mem_map.mp hline
  have hk' : k ∈ pageKeys page := (sortKeysDesc_perm _).mem_iff.mp hk
  simpa using renderLine_ne_empty hk'

theorem pageLines_chars {page : List TextItem} {line : String} {d : Char}
    (hl : line ∈ pageLines page) (hd : d ∈ line.data) :
    d ≠ '<' ∧ d ≠ '>' ∧ d ≠ quotChar ∧ d ≠ aposChar := by
  rw [pageLines] at hl
  obtain ⟨k, _, rfl⟩ := List.mem_map.mp (List.mem_of_mem_filter hl)
  rw [renderLine] at hd
  rcases normalizeWhitespace_chars hd with hd1 | rfl
  · rcases joinWith_chars hd1 with ⟨t, ht, hdt⟩ | hsep
    · obtain ⟨s, hs, rfl⟩ := List.mem_map.mp ht
      have hs' : s ∈ groupFor page k := (sortByX_perm _).mem_iff.mp hs
      exact escapeHtml_chars (by rw [(groupFor_text_spec hs').choose_spec.2] at hdt; exact hdt)
    · have : d = ' ' := by simpa using hsep
      subst this
      decide
  · decide

/-! ### Per-item processing equations and the rounding function -/

theorem runOfItem_eq_none {item : TextItem} (h : keptItem item = false) :
    runOfItem item = none := by
  rw [runOfItem]
  cases hstr : item.str with
  | none => rfl
  | some raw =>
    rw [keptItem, hstr] at h
    have hraw : normalizeWhitespace raw = "" := by simpa using h
    exact if_pos hraw

theorem runOfItem_eq_some {item : TextItem} {raw : String} (hs : item.str = some raw)
    (h : normalizeWhitespace raw ≠ "") :
    runOfItem item =
      some (jsRound (itemY item), ⟨itemX item, escapeHtml (normalizeWhitespace raw)⟩) := by
  rw [runOfItem, hs]
  exact if_neg h

theorem pageRuns_keys_eq (page : List TextItem) :
    (pageRuns page).map Prod.fst =
      (page.filter keptItem).map (fun it => jsRound (itemY it)) := by
  induction page with
  | nil => rfl
  | cons it rest ih =>
    cases hk : keptItem it with
    | false =>
      have hpr : pageRuns (it :: rest) = pageRuns rest := by
        rw [pageRuns, List.filterMap_cons, runOfItem_eq_none hk]
        rfl
      rw [hpr, ih, List.filter_cons, hk]
      simp
    | true =>
      obtain ⟨raw, hs, hne⟩ : ∃ raw, it.str = some raw ∧ normalizeWhitespace raw ≠ "" := by
        rw [keptItem] at hk
        cases hstr : it.str with
        | none => rw [hstr] at hk; exact absurd hk (by simp)
        | some raw => rw [hstr] at hk; exact ⟨raw, rfl, by simpa using hk⟩
      have hpr : pageRuns (it :: rest) =
          (jsRound (itemY it), ⟨itemX it, escapeHtml (normalizeWhitespace raw)⟩) ::
            pageRuns rest := by
        rw [pageRuns, List.filterMap_cons, runOfItem_eq_some hs hne]
        rfl
      rw [hpr, List.map_cons, ih, List.filter_cons, hk]
      simp

theorem jsRound_eq_floor (q : ℚ) : jsRound q = ⌊q + 1 / 2⌋ := by
  have hden : (q.den : ℚ) ≠ 0 := by exact_mod_cast q.den_nz
  have hq : (q.num : ℚ) = q * (q.den : ℚ) := by
    have h := Rat.num_div_den q
    rw [div_eq_iff hden] at h
    exact h
  have h2 : ((2 * q.den : ℕ) : ℚ) = 2 * (q.den : ℚ) := by push_cast; ring
  have key : q + 1 / 2 = ((2 * q.num + (q.den : ℤ) : ℤ) : ℚ) / ((2 * q.den : ℕ) : ℚ) := by
    rw [h2, eq_div_iff (mul_ne_zero two_ne_zero hden)]
    push_cast
    linear_combination (-2 : ℚ) * hq
  rw [key, Rat.floor_intCast_div_natCast, jsRound]
  push_cast
  rfl

theorem jsRound_eq_round (q : ℚ) : jsRound q = round q := by
  rw [jsRound_eq_floor, round_eq]

theorem jsRound_nearest (q : ℚ) (n : ℤ) : |q - (jsRound q : ℚ)| ≤ |q - (n : ℚ)| := by
  rw [jsRound_eq_round]
  by_contra hcon
  push_neg at hcon
  have h1 : |q - (round q : ℚ)| ≤ 1 / 2 := abs_sub_round q
  have h2 : |q - (n : ℚ)| < 1 / 2 := lt_of_lt_of_le hcon h1
  have h3 : |(n : ℚ) - (round q : ℚ)| < 1 := by
    calc |(n : ℚ) - (round q : ℚ)| ≤ |(n : ℚ) - q| + |q - (round q : ℚ)| := abs_sub_le _ _ _
    _ < 1 / 2 + 1 / 2 := add_lt_add_of_lt_of_le (by rw [abs_sub_comm]; exact h2) h1
    _ = 1 := by norm_num
  have h5 : |n - round q| < 1 := by exact_mod_cast h3
  rw [abs_lt] at h5
  have h4 : n = round q := by omega
  rw [h4] at hcon
  exact lt_irrefl _ hcon

theorem jsRound_tie (q : ℚ) (h : q - ⌊q⌋ = 1 / 2) : jsRound q = ⌊q⌋ + 1 := by
  rw [jsRound_eq_floor]
  have key : q + 1 / 2 = ((⌊q⌋ + 1 : ℤ) : ℚ) := by push_cast; linarith
  rw [key, Int.floor_intCast]

/-! ### The claims -/

/-- C1: within a page, lines are emitted in strictly descending order of
the rounded line key: for any two surviving runs of the same page whose
keys satisfy `round(y2) < round(y1)`, the line built from the first
run's group appears at an earlier position of `pageLines` than the line
built from the second run's group, and each run's segment belongs to its
line's group. -/
theorem claim_C1_lines_descending (page : List TextItem) (r1 r2 : ℤ × Seg)
    (h1 : r1 ∈ pageRuns page) (h2 : r2 ∈ pageRuns page) (hgt : r2.1 < r1.1) :
    ∃ i j : ℕ, i < j ∧
      (pageLines page).get? i = some (renderLine page r1.1) ∧
      (pageLines page).get? j = some (renderLine page r2.1) ∧
      r1.2 ∈ sortByX (groupFor page r1.1) ∧ r2.2 ∈ sortByX (groupFor page r2.1) := by
  have hk1 : r1.1 ∈ pageKeys page := (mem_pageKeys_iff page r1.1).mpr ⟨r1, h1, rfl⟩
  have hk2 : r2.1 ∈ pageKeys page := (mem_pageKeys_iff page r2.1).mpr ⟨r2, h2, rfl⟩
  have hk1' : r1.1 ∈ sortedKeysOf page := (sortKeysDesc_perm _).mem_iff.mpr hk1
  have hk2' : r2.1 ∈ sortedKeysOf page := (sortKeysDesc_perm _).mem_iff.mpr hk2
  have hsorted : List.Sorted (· > ·) (sortedKeysOf page) :=
    sortKeysDesc_sorted_gt (keysInOrder_nodup _)
  obtain ⟨i, j, hij, hi, hj⟩ := sorted_gt_get? hsorted hk1' hk2' hgt
  refine ⟨i, j, hij, ?_, ?_, ?_, ?_⟩
  · rw [pageLines_eq, List.get?_map, hi]; rfl
  · rw [pageLines_eq, List.get?_map, hj]; rfl
  · exact (sortByX_perm _).mem_iff.mpr (mem_groupFor_of_run h1)
  · exact (sortByX_perm _).mem_iff.mpr (mem_groupFor_of_run h2)

/-- C1 witness: on the concrete page with runs at `y = 100` and
`y = 50`, the `y = 100` line precedes the `y = 50` line. -/
theorem claim_C1_witness :
    (((100 : ℤ), (⟨0, "top"⟩ : Seg)) ∈ pageRuns pageC1) ∧
    (((50 : ℤ), (⟨0, "bottom"⟩ : Seg)) ∈ pageRuns pageC1) ∧
    ((50 : ℤ) < 100) ∧
    (∃ i j : ℕ, i < j ∧
      (pageLines pageC1).get? i = some (renderLine pageC1 100) ∧
      (pageLines pageC1).get? j = some (renderLine pageC1 50) ∧
      (⟨0, "top"⟩ : Seg) ∈ sortByX (groupFor pageC1 100) ∧
      (⟨0, "bottom"⟩ : Seg) ∈ sortByX (groupFor pageC1 50)) :=
  ⟨by decide, by decide, by decide,
    claim_C1_lines_descending pageC1 (100, ⟨0, "top"⟩) (50, ⟨0, "bottom"⟩)
      (by decide) (by decide) (by decide)⟩

/-- C2: within every line group the segments are sorted ascending by
`x`, stably (segments of equal `x` keep their relative order, stated as
filter-invariance), the line is the whitespace-normalized single-space
join of the sorted escaped texts, and the concrete page with runs
`{B, x=10, y=100}` and `{A, x=0, y=100}` yields the single line
`A B`. -/
theorem claim_C2_runs_ascending_stable :
    (∀ l : List Seg, List.Sorted (fun u v : Seg => u.x ≤ v.x) (sortByX l) ∧
        List.Perm (sortByX l) l ∧
        ∀ v : ℚ, (sortByX l).filter (fun s => decide (s.x = v)) =
          l.filter (fun s => decide (s.x = v))) ∧
    (∀ (page : List TextItem) (k : ℤ),
        renderLine page k =
          normalizeWhitespace (joinWith " " ((sortByX (groupFor page k)).map Seg.text))) ∧
    extractPdfToHtmlCore [pageC2] =
      "<article class=\"almeida-pdf-import\" data-origin=\"pdf\">\n<section data-page=\"1\">\n  <p>A B</p>\n</section>\n</article>" :=
  ⟨fun l => ⟨sortByX_sorted l, sortByX_perm l, sortByX_filter l⟩, fun _ _ => rfl, by decide⟩

/-- C3: `escapeHtml` performs exactly the per-character entity
substitution on the five reserved markup characters, its output never
contains a raw `<`, `>`, `"` or `'`, and no line emitted into a page
fragment contains one of those four characters. -/
theorem claim_C3_escaping (s : String) (page : List TextItem) :
    (escapeHtml s).data = s.data.flatMap escChar ∧
    (∀ d ∈ (escapeHtml s).data, d ≠ '<' ∧ d ≠ '>' ∧ d ≠ quotChar ∧ d ≠ aposChar) ∧
    ∀ line ∈ pageLines page, ∀ d ∈ line.data,
      d ≠ '<' ∧ d ≠ '>' ∧ d ≠ quotChar ∧ d ≠ aposChar :=
  ⟨escapeHtml_data s, fun _ hd => escapeHtml_chars hd, fun _ hl _ hd => pageLines_chars hl hd⟩

/-- C4 counterexample: at `y = -3/2` the code groups under key `-1`
(`Math.round`, ties toward positive infinity), while both
round-half-away-from-zero and round-half-to-even give `-2`, so the
grouping key is neither of the two roundings named by the claim. -/
theorem claim_C4_counterexample :
    pageKeys pageC4 = [-1] ∧
    roundHalfAwayFromZero (Rat.divInt (-3) 2) = -2 ∧
    roundHalfToEven (Rat.divInt (-3) 2) = -2 := by
  have hq : (Rat.divInt (-3) 2 : ℚ) = -3 / 2 := by
    rw [Rat.divInt_eq_div]; norm_num
  have hfl : ⌊(-3 / 2 : ℚ)⌋ = -2 := by
    rw [Int.floor_eq_iff]
    constructor <;> norm_num
  refine ⟨by decide, ?_, ?_⟩
  · rw [hq, roundHalfAwayFromZero, if_neg (by norm_num)]
    rw [show (-(-3 / 2 : ℚ) + 1 / 2) = ((2 : ℤ) : ℚ) by norm_num, Int.floor_intCast]
  · rw [hq, roundHalfToEven, hfl, if_neg (by push_cast; norm_num),
      if_neg (by push_cast; norm_num), if_pos ⟨-1, by norm_num⟩]

/-- C4 amended: the grouping key of every surviving run is
`Math.round(y)` = `⌊y + 1/2⌋`, the integer nearest to `y` with ties
resolved toward positive infinity (so `y = n + 1/2` gets key `n + 1`,
also for negative `y`) — not round-half-away-from-zero and not
round-half-to-even. -/
theorem claim_C4_amended (page : List TextItem) :
    ((pageRuns page).map Prod.fst =
        (page.filter keptItem).map (fun it => jsRound (itemY it))) ∧
    ∀ q : ℚ, jsRound q = ⌊q + 1 / 2⌋ ∧
      (∀ n : ℤ, |q - (jsRound q : ℚ)| ≤ |q - (n : ℚ)|) ∧
      ∀ n : ℤ, jsRound ((n : ℚ) + 1 / 2) = n + 1 :=
  ⟨pageRuns_keys_eq page, fun q =>
    ⟨jsRound_eq_floor q, jsRound_nearest q, fun n => by
      rw [jsRound_eq_floor,
        show ((n : ℚ) + 1 / 2 + 1 / 2) = ((n + 1 : ℤ) : ℚ) by push_cast; ring,
        Int.floor_intCast]⟩⟩

set_option maxRecDepth 4000

/-- C5 counterexample: a one-page document whose only run is
whitespace-only does NOT produce the document-level fallback notice; it
produces the per-page placeholder section, so "all pages empty" does not
yield the fallback. -/
theorem claim_C5_counterexample :
    extractPdfToHtmlCore [pageWsOnly] =
      "<article class=\"almeida-pdf-import\" data-origin=\"pdf\">\n<section data-page=\"1\">\n  <p><em>Página 1: sem conteúdo textual legível.</em></p>\n</section>\n</article>" ∧
    extractPdfToHtmlCore [pageWsOnly] ≠
      "<article class=\"almeida-pdf-import\" data-origin=\"pdf\">\n" ++ fallbackNotice ++
        "\n</article>" := by
  refine ⟨by decide, ?_⟩
  decide

/-- C5 amended: the document-level fallback notice (wrapped in the outer
article container) is produced exactly for a document with zero pages;
any document with at least one page produces one fragment per page (a
non-empty fragment list), never the fallback. -/
theorem claim_C5_amended (pages : List (List TextItem)) (h : pages ≠ []) :
    extractPdfToHtmlCore [] =
      "<article class=\"almeida-pdf-import\" data-origin=\"pdf\">\n" ++ fallbackNotice ++
        "\n</article>" ∧
    fragmentsOf pages ≠ [] ∧
    extractPdfToHtmlCore pages =
      "<article class=\"almeida-pdf-import\" data-origin=\"pdf\">\n" ++
        joinWith "\n" (fragmentsOf pages) ++ "\n</article>" := by
  have hfr : fragmentsOf pages ≠ [] := by
    cases pages with
    | nil => exact absurd rfl h
    | cons p ps => simp [fragmentsOf]
  refine ⟨by decide, hfr, ?_⟩
  show "<article class=\"almeida-pdf-import\" data-origin=\"pdf\">\n" ++
      joinWith "\n" (if fragmentsOf pages = [] then [fallbackNotice] else fragmentsOf pages) ++
      "\n</article>" = _
  rw [if_neg hfr]

/-- C5 witness: the amended claim applied to the one-page whitespace-only
document. -/
theorem claim_C5_witness :
    ([pageWsOnly] : List (List TextItem)) ≠ [] ∧
    (extractPdfToHtmlCore [] =
        "<article class=\"almeida-pdf-import\" data-origin=\"pdf\">\n" ++ fallbackNotice ++
          "\n</article>" ∧
      fragmentsOf [pageWsOnly] ≠ [] ∧
      extractPdfToHtmlCore [pageWsOnly] =
        "<article class=\"almeida-pdf-import\" data-origin=\"pdf\">\n" ++
          joinWith "\n" (fragmentsOf [pageWsOnly]) ++ "\n</article>") :=
  ⟨by decide, claim_C5_amended [pageWsOnly] (by decide)⟩

/-- C6: a page all of whose items are discarded (no `str` field, or
empty/whitespace-only text) yields exactly the non-empty per-page
placeholder section stating that no legible text was found. -/
theorem claim_C6_placeholder (n : ℕ) (page : List TextItem)
    (h : ∀ it ∈ page, keptItem it = false) :
    pageFragment n page =
      "<section data-page=\"" ++ toString n ++ "\">\n  <p><em>Página " ++ toString n ++
        ": sem conteúdo textual legível.</em></p>\n</section>" ∧
    (pageFragment n page).data ≠ [] := by
  have hruns : pageRuns page = [] := by
    rw [pageRuns, List.filterMap_eq_nil]
    intro it hit
    exact runOfItem_eq_none (h it hit)
  have hlines : pageLines page = [] := by
    rw [pageLines_eq, sortedKeysOf, pageKeys, hruns]
    rfl
  have h1 : pageFragment n page =
      "<section data-page=\"" ++ toString n ++ "\">\n  <p><em>Página " ++ toString n ++
        ": sem conteúdo textual legível.</em></p>\n</section>" := by
    show (if pageLines page = [] then _ else _) = _
    rw [hlines, if_pos rfl]
  refine ⟨h1, ?_⟩
  rw [h1]
  intro hd
  rw [String.data_append, String.data_append, String.data_append, String.data_append] at hd
  rcases List.append_eq_nil.mp hd with ⟨h2, _⟩
  rcases List.append_eq_nil.mp h2 with ⟨h3, _⟩
  rcases List.append_eq_nil.mp h3 with ⟨h4, _⟩
  rcases List.append_eq_nil.mp h4 with ⟨h5, _⟩
  exact (by decide : ("<section data-page=\"").data ≠ []) h5

/-- C6 witness: the placeholder for page 1 of a page containing one
whitespace-only run and one item without text. -/
theorem claim_C6_witness :
    (∀ it ∈ pageC6w, keptItem it = false) ∧
    (pageFragment 1 pageC6w =
        "<section data-page=\"" ++ toString (1 : ℕ) ++ "\">\n  <p><em>Página " ++
          toString (1 : ℕ) ++ ": sem conteúdo textual legível.</em></p>\n</section>" ∧
      (pageFragment 1 pageC6w).data ≠ []) :=
  ⟨by decide, claim_C6_placeholder 1 pageC6w (by decide)⟩

/-- C7: when invoked outside a browser context or on an input that does
not start with `data:`, `extractPdfToHtml` rejects with one of the two
descriptive guard errors before any page processing (independently of
the pages), and never returns a result. -/
theorem claim_C7_guards (inBrowser : Bool) (dataUri : String) (pages : List (List TextItem))
    (h : inBrowser = false ∨ jsStartsWith dataUri "data:" = false) :
    (∃ msg, extractPdfToHtml inBrowser dataUri pages = Except.error msg ∧
        (msg = browserOnlyError ∨ msg = dataUrlError)) ∧
    ∀ html, extractPdfToHtml inBrowser dataUri pages ≠ Except.ok html := by
  have key : extractPdfToHtml inBrowser dataUri pages = Except.error browserOnlyError ∨
      extractPdfToHtml inBrowser dataUri pages = Except.error dataUrlError := by
    rcases h with hb | hd
    · left
      rw [extractPdfToHtml, if_pos hb]
    · cases hb : inBrowser with
      | false =>
        left
        rw [extractPdfToHtml, if_pos rfl]
      | true =>
        right
        rw [extractPdfToHtml, if_neg (by simp), if_pos hd]
  constructor
  · rcases key with hk | hk
    · exact ⟨browserOnlyError, hk, Or.inl rfl⟩
    · exact ⟨dataUrlError, hk, Or.inr rfl⟩
  · intro html heq
    rcases key with hk | hk <;> rw [hk] at heq <;> exact Except.noConfusion heq

/-- C7 witness: inside a browser, the non-data-URI input `file.pdf` is
rejected. -/
theorem claim_C7_witness :
    ((true : Bool) = false ∨ jsStartsWith "file.pdf" "data:" = false) ∧
    ((∃ msg, extractPdfToHtml true "file.pdf" [[]] = Except.error msg ∧
        (msg = browserOnlyError ∨ msg = dataUrlError)) ∧
      ∀ html, extractPdfToHtml true "file.pdf" [[]] ≠ Except.ok html) :=
  ⟨Or.inr (by decide), claim_C7_guards true "file.pdf" [[]] (Or.inr (by decide))⟩

/-- C8: whitespace normalization maps a string to its maximal
non-whitespace runs joined by single spaces (collapsing each internal
whitespace run to one space and trimming both ends), and it is
idempotent. -/
theorem claim_C8_normalization (s : String) :
    (normalizeWhitespace s).data = joinWords (wordsOf s.data) ∧
    normalizeWhitespace (normalizeWhitespace s) = normalizeWhitespace s :=
  ⟨normalizeWhitespace_data s, normalizeWhitespace_idem s⟩

/-- C9: the worker configuration guard is an idempotent check-then-set:
a second consecutive call changes nothing and performs no assignment, an
assignment happens exactly in the browser when the stored value differs,
and any positive number of calls leaves the state of a single call. -/
theorem claim_C9_worker_idempotent (b : Bool) (src : String) (st : WorkerOptions) :
    (ensurePdfWorkerConfigured b src (ensurePdfWorkerConfigured b src st).1).1 =
      (ensurePdfWorkerConfigured b src st).1 ∧
    (ensurePdfWorkerConfigured b src (ensurePdfWorkerConfigured b src st).1).2 = false ∧
    ((ensurePdfWorkerConfigured b src st).2 = true ↔ b = true ∧ st.workerSrc ≠ src) ∧
    ∀ n : ℕ, (fun w => (ensurePdfWorkerConfigured b src w).1)^[n + 1] st =
      (ensurePdfWorkerConfigured b src st).1 := by
  cases b with
  | false =>
    refine ⟨rfl, rfl, by simp [ensurePdfWorkerConfigured], ?_⟩
    intro n
    induction n with
    | zero => rfl
    | succ m ih =>
      rw [Function.iterate_succ_apply', ih]
      rfl
  | true =>
    by_cases hsrc : st.workerSrc = src
    · have h1 : ensurePdfWorkerConfigured true src st = (st, false) := by
        rw [ensurePdfWorkerConfigured, if_neg (by simp), if_neg (by simp [hsrc])]
      refine ⟨by simp [h1], by simp [h1], by simp [h1, hsrc], ?_⟩
      intro n
      induction n with
      | zero => rw [Function.iterate_one]
      | succ m ih =>
        rw [Function.iterate_succ_apply', ih]
        simp [h1]
    · have h1 : ensurePdfWorkerConfigured true src st = (⟨src⟩, true) := by
        rw [ensurePdfWorkerConfigured, if_neg (by simp), if_pos hsrc]
      have h2 : ensurePdfWorkerConfigured true src ⟨src⟩ = (⟨src⟩, false) := by
        rw [ensurePdfWorkerConfigured, if_neg (by simp), if_neg (by simp)]
      refine ⟨by simp [h1, h2], by simp [h1, h2], by simp [h1, hsrc], ?_⟩
      intro n
      induction n with
      | zero => rw [Function.iterate_one]
      | succ m ih =>
        rw [Function.iterate_succ_apply', ih]
        simp [h1, h2]

/-- C10: a text item whose transform is absent or not an array is not
discarded when its text survives normalization: it gets the default
coordinates `x = 0`, `y = 0` and is grouped under line key `0`. -/
theorem claim_C10_default_origin (item : TextItem) (s : String) (hs : item.str = some s)
    (ht : item.transform = none) (h : normalizeWhitespace s ≠ "") :
    pageRuns [item] = [(0, ⟨0, escapeHtml (normalizeWhitespace s)⟩)] ∧
    itemX item = 0 ∧ itemY item = 0 := by
  have hx : itemX item = 0 := by rw [itemX, ht]; rfl
  have hy : itemY item = 0 := by rw [itemY, ht]; rfl
  refine ⟨?_, hx, hy⟩
  rw [pageRuns, List.filterMap_cons, runOfItem_eq_some hs h, hy, hx]
  rw [show jsRound 0 = 0 from by decide]
  rfl

/-- C10 witness: the item `{str: "A"}` without transform yields the run
at the origin with key 0. -/
theorem claim_C10_witness :
    (⟨some "A", none⟩ : TextItem).str = some "A" ∧
    (⟨some "A", none⟩ : TextItem).transform = none ∧
    normalizeWhitespace "A" ≠ "" ∧
    (pageRuns [⟨some "A", none⟩] = [(0, ⟨0, escapeHtml (normalizeWhitespace "A")⟩)] ∧
      itemX ⟨some "A", none⟩ = 0 ∧ itemY ⟨some "A", none⟩ = 0) :=
  ⟨rfl, rfl, by decide, claim_C10_default_origin ⟨some "A", none⟩ "A" rfl rfl (by decide)⟩
